import Mathlib

/-!
Verification of the `bison` configuration library (src/bison/).

The development shallowly embeds the Python source:
* `PValue` models the Python values stored in configuration dictionaries
  (None, bools, ints, strings, lists, dicts).  Dicts are modelled as
  insertion-ordered association lists, matching Python 3.7+ `dict`.
* `DotDict` operations (`bison/utils.py`) become pure functions over
  `PDict`; the in-place mutation of the source is explicit state passing.
* the `Scheme` node machinery (`bison/scheme.py`) becomes an inductive
  `SNode` with the functions `buildDefaults`, `flattenArgs`,
  `optionParseEnv`, `castValue`, `dictOptionParseEnv`, `listOptionParseEnv`.
* the `Bison` facade (`bison/bison.py`) becomes `BisonState` with the
  three parse phases; the filesystem and the YAML parser (external
  collaborators per the spec) are parameters (`FileSystem`), and the
  process environment is an association list `Env`.
* Python exceptions are modelled with `Except BErr`; `Option` models
  functions that can fail with `KeyError`/`TypeError` (`DotDict.delete`)
  or `AttributeError` (`_merge`).
-/

namespace Bison

/-- Embedding of the Python values that appear in bison configurations.
Dictionaries are insertion-ordered association lists (Python 3.7+ dicts).
`vnone` is Python `None`.  Floats do not occur in any verified property
and are omitted from the embedding. -/
inductive PValue where
  | vnone : PValue
  | vbool (b : Bool) : PValue
  | vint (n : Int) : PValue
  | vstr (s : String) : PValue
  | vlist (elems : List PValue) : PValue
  | vdict (entries : List (String × PValue)) : PValue

/-- A Python dict with string keys: an insertion-ordered association list. -/
abbrev PDict := List (String × PValue)

section AssocOps

variable {α : Type}

/-- Python `d[k]` lookup / `d.get(k)` on a plain dict: first matching key. -/
def alookup : List (String × α) → String → Option α
  | [], _ => none
  | (k, v) :: rest, key => if k = key then some v else alookup rest key

/-- Python `d[k] = v` on a plain dict: replace in place if the key exists
(keeping its position), otherwise append at the end. -/
def insertK : List (String × α) → String → α → List (String × α)
  | [], key, v => [(key, v)]
  | (k, w) :: rest, key, v =>
      if k = key then (k, v) :: rest else (k, w) :: insertK rest key v

/-- Python `del d[k]` on a plain dict (assuming the key is present):
remove the first matching entry. -/
def removeK : List (String × α) → String → List (String × α)
  | [], _ => []
  | (k, w) :: rest, key => if k = key then rest else (k, w) :: removeK rest key

/-- Python `d.update(u)`: set each key of `u` into `d`, in order. -/
def updateK (d : List (String × α)) (u : List (String × α)) : List (String × α) :=
  u.foldl (fun acc kv => insertK acc kv.1 kv.2) d

end AssocOps

/-- Splitting a character list on a separator character; embeds Python
`str.split(sep)` for a one-character separator.  Never returns `[]`
(Python: `''.split('.') == ['']`). -/
def splitOnChar (sep : Char) : List Char → List (List Char)
  | [] => [[]]
  | c :: cs =>
      if c = sep then [] :: splitOnChar sep cs
      else
        match splitOnChar sep cs with
        | [] => [[c]]
        | h :: t => (c :: h) :: t

/-- Python `key.split('.')`. -/
def splitDots (s : String) : List String :=
  (splitOnChar '.' s.data).map String.mk

/-- Python `value.split(',')` (used by `ListOption.parse_env`). -/
def splitCommas (s : String) : List String :=
  (splitOnChar ',' s.data).map String.mk

/-- `utils.build_dot_value`: the nested dictionary chain built from the
dot components after the first one, e.g. `nestVal ["y", "z"] v = {y: {z: v}}`;
`build_dot_value k v` is `(first component of k, nestVal (later components) v)`. -/
def nestVal : List String → PValue → PValue
  | [], v => v
  | k :: rest, v => .vdict [(k, nestVal rest v)]

/-- `DotDict.get` (utils.py:98-135), processing the dot-separated components
of the key.  A dotless key is a plain lookup with fallback to `default`.
For a dotted key the source sets `value = default`, looks up the first
component, recurses into it if it is a dict (passing the REMAINDER with
the recursive call's own default, `None`), and otherwise returns `value`
- which is the stored value when the first component is present but not
a dict, and `default` only when the first component is absent. -/
def dgetParts : PDict → List String → PValue → PValue
  | _, [], default => default
  | d, [k], default => (alookup d k).getD default
  | d, k :: k2 :: rest, default =>
      match alookup d k with
      | some (.vdict d2) => dgetParts d2 (k2 :: rest) .vnone
      | some v => v
      | none => default

def dget (d : PDict) (key : String) (default : PValue) : PValue :=
  dgetParts d (splitDots key) default

/-- `DotDict.__getitem__` (utils.py:53-56): `x[y]` is `x.get(y, None)`. -/
def dgetItem (d : PDict) (key : String) : PValue :=
  dget d key .vnone

/-- `DotDict.__setitem__` (utils.py:58-78) on the dot components of the key. -/
def dsetParts : PDict → List String → PValue → PDict
  | d, [], _ => d
  | d, [k], v => insertK d k v
  | d, k :: k2 :: rest, v =>
      match alookup d k with
      | some (.vdict d2) => insertK d k (.vdict (dsetParts d2 (k2 :: rest) v))
      | _ => insertK d k (nestVal (k2 :: rest) v)

def dset (d : PDict) (key : String) (v : PValue) : PDict :=
  dsetParts d (splitDots key) v

/-- `DotDict.__contains__` (utils.py:80-92) on the dot components. -/
def dcontainsParts : PDict → List String → Bool
  | _, [] => false
  | d, [k] => (alookup d k).isSome
  | d, k :: k2 :: rest =>
      match alookup d k with
      | some (.vdict d2) => dcontainsParts d2 (k2 :: rest)
      | some _ => false
      | none => false

def dcontains (d : PDict) (key : String) : Bool :=
  dcontainsParts d (splitDots key)

/-- `DotDict.delete` (utils.py:137-171).  The loop walks the components;
when the current component EQUALS the final component (`k == last_key`,
a value comparison) it deletes there and stops.  `none` models the
exceptions: `KeyError` when a walked component is absent or the final
deletion target is absent, and the `KeyError`/`TypeError` raised when a
walked value is not a dict (the source errors one step later than the
model checks, with no observable difference in outcome). -/
def ddelParts : PDict → List String → String → Option PDict
  | d, [], _ => some d
  | d, k :: rest, last =>
      if k = last then
        if (alookup d k).isSome then some (removeK d k) else none
      else
        match alookup d k with
        | some (.vdict d2) =>
            match ddelParts d2 rest last with
            | some d2' => some (insertK d k (.vdict d2'))
            | none => none
        | _ => none

def ddelete (d : PDict) (key : String) : Option PDict :=
  ddelParts d (splitDots key) ((splitDots key).getLastD "")

/-- `utils._merge(d, u)` for the RECURSIVE calls, where `d` is a plain value
(`d.get(k, {})` of the enclosing call, possibly not a dict) and `u` is a
plain dict.  For each `(k, v)` of `u`, in order:
if `v` is a mapping, `d[k] = _merge(d.get(k, {}), v)` - which raises
`AttributeError` (modelled `none`) when `d` is not a dict, since a
non-dict has no `.get`; otherwise if `d` is a dict, `d[k] = v`;
otherwise `d` is replaced by `{k: v}`. -/
def pmergePlain : PValue → PDict → Option PValue
  | d, [] => some d
  | d, (k, v) :: rest =>
      match v with
      | .vdict uv =>
          match d with
          | .vdict dd =>
              match pmergePlain ((alookup dd k).getD (.vdict [])) uv with
              | some merged => pmergePlain (.vdict (insertK dd k merged)) rest
              | none => none
          | _ => none
      | _ =>
          match d with
          | .vdict dd => pmergePlain (.vdict (insertK dd k v)) rest
          | _ => pmergePlain (.vdict [(k, v)]) rest
termination_by _ u => sizeOf u

/-- `DotDict.merge(source)`, i.e. the top-level `_merge(self, source)`:
here `d` is the `DotDict` itself, so `d.get(k, {})` is the dot-notation
`DotDict.get` and `d[k] = ...` is the dot-notation `DotDict.__setitem__`
(the nested recursive calls work on plain dicts and use `pmergePlain`). -/
def mergeTop : PDict → PDict → Option PDict
  | d, [] => some d
  | d, (k, v) :: rest =>
      match v with
      | .vdict uv =>
          match pmergePlain (dget d k (.vdict [])) uv with
          | some merged => mergeTop (dset d k merged) rest
          | none => none
      | _ => mergeTop (dset d k v) rest

/-- The keys of a source dict are dot-free (split on dots to themselves):
under this condition the top-level `DotDict` get/set reduce to plain
dict operations. -/
abbrev DotFreeKeys (u : PDict) : Prop :=
  ∀ kv ∈ u, splitDots kv.1 = [kv.1]

/-- The keys of a dict are pairwise distinct (no shadowed entries). -/
abbrev DistinctKeys (u : PDict) : Prop :=
  (u.map Prod.fst).Nodup

/-- Recursively well-formed value: every nested dict has pairwise
distinct keys. -/
def wfVal : PValue → Bool
  | .vdict [] => true
  | .vdict ((k, v) :: rest) =>
      !(rest.any fun kv => kv.1 == k) && wfVal v && wfVal (.vdict rest)
  | _ => true

/-- The per-key effect of one iteration of the top-level `_merge` loop
(for a dot-free key): a mapping value is merged into `d.get(k, {})`,
any other value is assigned outright. -/
def mergeStep (old : Option PValue) (v : PValue) : Option PValue :=
  match v with
  | .vdict uv => pmergePlain (old.getD (.vdict [])) uv
  | _ => some v

/-- Python `isinstance(v, collections.Mapping)` over the embedded values. -/
def isDictV : PValue → Bool
  | .vdict _ => true
  | _ => false

/-! ### String helpers (ASCII embeddings of the Python `str` methods used) -/

/-- Python `str.upper()` on one ASCII character. -/
def upChar (c : Char) : Char :=
  if c.isLower then Char.ofNat (c.toNat - 32) else c

/-- Python `str.lower()` on one ASCII character. -/
def lowChar (c : Char) : Char :=
  if c.isUpper then Char.ofNat (c.toNat + 32) else c

/-- Python `s.upper()` (the names involved are ASCII). -/
def asciiUpper (s : String) : String := String.mk (s.data.map upChar)

/-- Python `s.lower()`. -/
def asciiLower (s : String) : String := String.mk (s.data.map lowChar)

/-- Python `s.replace('.', '_')`. -/
def dotsToUnders (s : String) : String :=
  String.mk (s.data.map fun c => if c = '.' then '_' else c)

/-- Python `s.replace('_', '.')`. -/
def undersToDots (s : String) : String :=
  String.mk (s.data.map fun c => if c = '_' then '.' else c)

/-- Python `s.endswith('_')`. -/
def endsUnderscore (s : String) : Bool :=
  match s.data.getLast? with
  | some c => c = '_'
  | none => false

/-- Python `s.startswith(pre)`. -/
def strStartsWith (pre s : String) : Bool := pre.data.isPrefixOf s.data

/-- Python `s[len(pre):]`. -/
def dropPrefixChars (pre s : String) : String := String.mk (s.data.drop pre.data.length)

/-- Python `int(s)` restricted to an optional sign followed by decimal
digits (Python additionally tolerates surrounding whitespace and
underscore separators; no verified property exercises those). -/
def digitsValGo (acc : Nat) : List Char → Option Nat
  | [] => some acc
  | c :: cs => if c.isDigit then digitsValGo (10 * acc + (c.toNat - 48)) cs else none

def parseIntPy (s : String) : Option Int :=
  match s.data with
  | '-' :: ds => if ds = [] then none else (digitsValGo 0 ds).map fun n => -(n : Int)
  | '+' :: ds => if ds = [] then none else (digitsValGo 0 ds).map fun n => (n : Int)
  | ds => if ds = [] then none else (digitsValGo 0 ds).map fun n => (n : Int)

/-! ### Scheme nodes (`bison/scheme.py`) -/

/-- The errors of `bison/errors.py` together with the messages that tell
the generic `BisonError` uses apart. -/
inductive BErr where
  | invalidScheme            -- errors.InvalidSchemeError
  | notFound                 -- BisonError('No file named ... found in search paths ...')
  | parseFailed (path : String)  -- BisonError('Failed to parse config file: <path>')
  | castFailed               -- BisonError('Failed to cast ... to ...')
  | unsupportedCastType      -- BisonError('Unsupported type for casting: ...')
deriving DecidableEq

/-- The declared `field_type` of an `Option`.  `tother` stands for any
declared type other than str/int/bool (unsupported for casting); the
float branch of `cast` needs floating point and no verified property
uses it, so it is folded away. -/
inductive PType where
  | tstr
  | tint
  | tbool
  | tother
deriving DecidableEq

/-- The `bind_env` attribute of an `Option`: Python `None` (the
constructor default), `True`, `False`, or an explicit variable name. -/
inductive BindEnv where
  | unset
  | yes
  | no
  | var (s : String)

/-- A member of a `Scheme`'s `args` tuple.  `default = none` models the
`NoDefault` sentinel (a declared default of Python `None` is
`some .vnone`).  `notANode` models an element that is not a `_BaseOpt`
instance.  The `choices`, `member_type` and `member_scheme` attributes
only feed `validate`, which no verified property covers, and are
omitted. -/
inductive SNode where
  | option (name : String) (default : Option PValue) (fieldType : Option PType) (bindEnv : BindEnv)
  | listOption (name : String) (default : Option PValue) (bindEnv : Bool)
  | dictOption (name : String) (scheme : Option (List SNode)) (default : Option PValue)
      (bindEnv : Bool)
  | notANode

/-- The step `if not isinstance(arg.default, NoDefault): defaults[arg.name] = arg.default`. -/
def applyDefault (acc : PDict) (n : String) : Option PValue → PDict
  | some v => insertK acc n v
  | none => acc

/-- The loop of `Scheme.build_defaults` (scheme.py:44-70), with `acc` the
`defaults` dict built so far. -/
def buildDefaultsGo : PDict → List SNode → Except BErr PDict
  | acc, [] => .ok acc
  | _, .notANode :: _ => .error .invalidScheme
  | acc, .option n dflt _ _ :: rest => buildDefaultsGo (applyDefault acc n dflt) rest
  | acc, .listOption n dflt _ :: rest => buildDefaultsGo (applyDefault acc n dflt) rest
  | acc, .dictOption n sch dflt _ :: rest =>
      let acc1 := applyDefault acc n dflt
      match sch with
      | none => buildDefaultsGo acc1 rest
      | some sub =>
          match buildDefaultsGo [] sub with
          | .error e => .error e
          | .ok b => buildDefaultsGo (if b.isEmpty then acc1 else insertK acc1 n (.vdict b)) rest
termination_by _ args => sizeOf args

/-- `Scheme.build_defaults()`. -/
def buildDefaults (args : List SNode) : Except BErr PDict := buildDefaultsGo [] args

/-- The loop of `Scheme.flatten` (scheme.py:72-96); the memoisation in
`self._flat` is unobservable for a pure function.  Elements that are not
recognised nodes are skipped (the loop has no else branch). -/
def flattenGo : List (String × SNode) → List SNode → List (String × SNode)
  | flat, [] => flat
  | flat, .option n d ft be :: rest => flattenGo (insertK flat n (.option n d ft be)) rest
  | flat, .listOption n d be :: rest => flattenGo (insertK flat n (.listOption n d be)) rest
  | flat, .dictOption n sch d be :: rest =>
      let flat1 := insertK flat n (.dictOption n sch d be)
      match sch with
      | none => flattenGo flat1 rest
      | some sub =>
          flattenGo
            ((flattenGo [] sub).foldl (fun f kv => insertK f (n ++ "." ++ kv.1) kv.2) flat1) rest
  | flat, .notANode :: rest => flattenGo flat rest
termination_by _ args => sizeOf args

/-- `Scheme.flatten()`. -/
def flattenArgs (args : List SNode) : List (String × SNode) := flattenGo [] args

/-- The process environment (`os.environ`) as an injected snapshot:
an ordered list of `NAME=value` pairs. -/
abbrev Env := List (String × String)

/-- `Option.cast` (scheme.py:258-291).  With no declared type the value
is returned unchanged; `str(value)` of a string is itself; `int(value)`
fails with a cast error on a malformed literal; for `bool` the
lower-cased string is compared against the literal `"true"`; any other
declared type is unsupported. -/
def castValue (ft : Option PType) (value : String) : Except BErr PValue :=
  match ft with
  | none => .ok (.vstr value)
  | some .tstr => .ok (.vstr value)
  | some .tint =>
      match parseIntPy value with
      | some n => .ok (.vint n)
      | none => .error .castFailed
  | some .tbool => .ok (.vbool (asciiLower value = "true"))
  | some .tother => .error .unsupportedCastType

/-- The derived environment-variable name:
`env_key = key.replace('.', '_').upper()`, then
`if prefix: env_key = prefix.upper() + env_key`. -/
def deriveEnvKey (k : String) (pfx : Option String) : String :=
  let ek := asciiUpper (dotsToUnders k)
  match pfx with
  | some p => if p = "" then ek else asciiUpper p ++ ek
  | none => ek

/-- `env = os.environ.get(env_key); if env is not None: return self.cast(env)`,
falling through to `return None`. -/
def envLookupCast (env : Env) (ft : Option PType) (ek : String) : Except BErr (Option PValue) :=
  match alookup env ek with
  | some v => (castValue ft v).map some
  | none => .ok none

/-- `Option.parse_env` (scheme.py:212-256). -/
def optionParseEnv (env : Env) (name : String) (ft : Option PType) (be : BindEnv)
    (key : Option String) (pfx : Option String) (autoEnv : Bool) : Except BErr (Option PValue) :=
  let k := key.getD name
  match be with
  | .no => .ok none
  | .yes => envLookupCast env ft (deriveEnvKey k pfx)
  | .var s => envLookupCast env ft s
  | .unset => if autoEnv then envLookupCast env ft (deriveEnvKey k pfx) else .ok none

/-- `DictOption.parse_env` (scheme.py:340-366): with `bind_env=True` the
derived key (forced to end in `_`) is used as a prefix filter over ALL
environment variables; matches are stored in a `DotDict` under the
suffix with underscores turned to dots, lower-cased. -/
def dictOptionParseEnv (env : Env) (name : String) (be : Bool)
    (key : Option String) (pfx : Option String) : Except BErr (Option PValue) :=
  let k := key.getD name
  if be then
    let ek0 := deriveEnvKey k pfx
    let ek := if endsUnderscore ek0 then ek0 else ek0 ++ "_"
    let values := env.foldl
      (fun acc kv =>
        if strStartsWith ek kv.1 then
          dset acc (asciiLower (undersToDots (dropPrefixChars ek kv.1))) (.vstr kv.2)
        else acc)
      ([] : PDict)
    if values.isEmpty then .ok none else .ok (some (.vdict values))
  else .ok none

/-- `ListOption.parse_env` (scheme.py:434-451): with `bind_env=True` a
single derived variable is read; a non-empty value is split on commas
into a list of strings. -/
def listOptionParseEnv (env : Env) (name : String) (be : Bool)
    (key : Option String) (pfx : Option String) : Except BErr (Option PValue) :=
  let k := key.getD name
  if be then
    match alookup env (deriveEnvKey k pfx) with
    | some s => if s = "" then .ok none else .ok (some (.vlist ((splitCommas s).map .vstr)))
    | none => .ok none
  else .ok none

/-- Dynamic dispatch of `v.parse_env(k, prefix, auto_env)` over the node
kinds.  `notANode` is unreachable from `_parse_env` (flatten skips
non-node members). -/
def nodeParseEnv (env : Env) : SNode → Option String → Option String → Bool →
    Except BErr (Option PValue)
  | .option n _ ft be, key, pfx, auto => optionParseEnv env n ft be key pfx auto
  | .listOption n _ be, key, pfx, _ => listOptionParseEnv env n be key pfx
  | .dictOption n _ _ be, key, pfx, _ => dictOptionParseEnv env n be key pfx
  | .notANode, _, _, _ => .ok none

/-! ### The `Bison` facade (`bison/bison.py`) -/

/-- The external collaborators of `_find_config`/`_parse_config`:
`os.path.isfile`, and the composition of `open` with `yaml.safe_load`
(an opaque parser; `.error ()` stands for any exception raised while
opening or parsing, `.ok v` for the loaded document). -/
structure FileSystem where
  isfile : String → Bool
  readParse : String → Except Unit PValue

/-- `os.path.join(search_path, filename)`.  The `os.path.abspath`
normalisation applied by `_find_config` depends on the process working
directory and is not modelled: candidate paths are opaque strings handed
to the filesystem. -/
def joinPath (dir file : String) : String := dir ++ "/" ++ file

/-- The mutable attributes of a `Bison` object (bison.py:56-76).
`dConfig` starts as an empty `DotDict` but `_parse_config` assigns the
raw parsed document to it, which need not be a dict - hence `PValue`. -/
structure BisonState where
  scheme : Option (List SNode)
  configName : String
  configPaths : List String
  configFile : Option String
  envPfx : Option String
  autoEnv : Bool
  dDefault : PDict
  dConfig : PValue
  dEnvironment : PDict
  dOverride : PDict
  fullConfig : Option PDict

/-- The candidate files tried by `_find_config` (bison.py:149-170), in
order: each search path crossed with the extensions of the configured
format (only YAML exists: `.yml` then `.yaml`). -/
def candidatePaths (st : BisonState) : List String :=
  (st.configPaths.map fun sp =>
    [joinPath sp (st.configName ++ ".yml"), joinPath sp (st.configName ++ ".yaml")]).flatten

/-- `Bison._find_config`: the first existing candidate, `none` for the
`BisonError('No file named ...')` raised when none exists (including
when `config_paths` is empty). -/
def findConfig (fs : FileSystem) (st : BisonState) : Option String :=
  (candidatePaths st).find? fs.isfile

/-- `Bison._parse_default` (bison.py:222-233): invalidate the cache;
if a scheme is set, `self._default.update(self.scheme.build_defaults())`. -/
def parseDefaultPhase (st : BisonState) : Except BErr BisonState :=
  let st1 := { st with fullConfig := none }
  match st1.scheme with
  | none => .ok st1
  | some sch =>
      match buildDefaults sch with
      | .error e => .error e
      | .ok d => .ok { st1 with dDefault := updateK st1.dDefault d }

/-- `Bison._parse_config` (bison.py:172-197).  The whole body is guarded
by `if len(self.config_paths) > 0`: with no search paths nothing happens
and no error is raised.  Otherwise a failed search raises not-found
unless `requires_cfg` is false, and a found file that fails to open or
parse raises a wrapped error naming the file path regardless of
`requires_cfg`. -/
def parseConfigPhase (fs : FileSystem) (st : BisonState) (requiresCfg : Bool) :
    Except BErr BisonState :=
  if st.configPaths.isEmpty then .ok st
  else
    match findConfig fs st with
    | none => if requiresCfg then .error .notFound else .ok st
    | some path =>
        match fs.readParse path with
        | .error _ => .error (.parseFailed path)
        | .ok parsed =>
            .ok { st with configFile := some path, fullConfig := none, dConfig := parsed }

/-- The loop of `Bison._parse_env` building `env_cfg`: for each entry of
the flattened scheme, in order, `env_cfg[k] = v.parse_env(k, prefix,
auto_env)` when a value is found (a dot-notation `DotDict` set). -/
def buildEnvCfg (env : Env) : List (String × SNode) → Option String → Bool → PDict →
    Except BErr PDict
  | [], _, _, acc => .ok acc
  | (k, node) :: rest, pfx, auto, acc =>
      match nodeParseEnv env node (some k) pfx auto with
      | .error e => .error e
      | .ok none => buildEnvCfg env rest pfx auto acc
      | .ok (some v) => buildEnvCfg env rest pfx auto (dset acc k v)

/-- `if self.env_prefix and not self.env_prefix.endswith('_'):
self.env_prefix = self.env_prefix + '_'` (bison.py:205-207, a truthy
prefix is forced to end in a single underscore). -/
def normalizePfx : Option String → Option String
  | some p => if p = "" then some p else if endsUnderscore p then some p else some (p ++ "_")
  | none => none

/-- `Bison._parse_env` (bison.py:199-220): normalise the prefix to end in
`_`, then (only if a scheme is set) resolve every flattened entry; a
non-empty result invalidates the cache and updates the environment
layer. -/
def parseEnvPhase (env : Env) (st : BisonState) : Except BErr BisonState :=
  let pfx := normalizePfx st.envPfx
  let st1 := { st with envPfx := pfx }
  match st1.scheme with
  | none => .ok st1
  | some sch =>
      match buildEnvCfg env (flattenArgs sch) pfx st1.autoEnv [] with
      | .error e => .error e
      | .ok envCfg =>
          if envCfg.isEmpty then .ok st1
          else .ok { st1 with fullConfig := none, dEnvironment := updateK st1.dEnvironment envCfg }

/-- `Bison.parse(requires_cfg)` (bison.py:138-147): defaults, then the
config file, then the environment; an exception in one phase aborts the
rest. -/
def bisonParse (fs : FileSystem) (env : Env) (st : BisonState) (requiresCfg : Bool) :
    Except BErr BisonState :=
  match parseDefaultPhase st with
  | .error e => .error e
  | .ok st1 =>
      match parseConfigPhase fs st1 requiresCfg with
      | .error e => .error e
      | .ok st2 => parseEnvPhase env st2

/-- A dotted-key traversal whose intermediate components only ever hit
dict values or a missing key - never a present non-dict value.  Under
this condition a failed `DotDict` lookup yields the recursion's `None`
default rather than a stored non-dict intermediate. -/
def missAlongPath : PDict → List String → Bool
  | _, [] => true
  | _, [_] => true
  | d, k :: k2 :: rest =>
      match alookup d k with
      | some (.vdict d2) => missAlongPath d2 (k2 :: rest)
      | some _ => false
      | none => true

/-! ## Lemmas -/

section AssocLemmas

variable {α : Type}

theorem alookup_insertK_self (d : List (String × α)) (k : String) (v : α) :
    alookup (insertK d k v) k = some v := by
  induction d with
  | nil => simp [insertK, alookup]
  | cons hd tl ih =>
      obtain ⟨k0, w⟩ := hd
      by_cases h0 : k0 = k
      · simp [insertK, alookup, h0]
      · simp [insertK, alookup, h0, ih]

theorem alookup_insertK_ne (d : List (String × α)) (k : String) (v : α)
    (k' : String) (h : k' ≠ k) :
    alookup (insertK d k v) k' = alookup d k' := by
  have hk : ¬(k = k') := fun hc => h hc.symm
  induction d with
  | nil => simp [insertK, alookup, hk]
  | cons hd tl ih =>
      obtain ⟨k0, w⟩ := hd
      by_cases h0 : k0 = k
      · subst h0
        simp [insertK, alookup, hk]
      · simp [insertK, alookup, h0, ih]

theorem insertK_append_of_absent (d : List (String × α)) (k : String) (v : α)
    (h : alookup d k = none) : insertK d k v = d ++ [(k, v)] := by
  induction d with
  | nil => simp [insertK]
  | cons hd tl ih =>
      obtain ⟨k0, w⟩ := hd
      by_cases h0 : k0 = k
      · simp [alookup, h0] at h
      · simp [alookup, h0] at h
        simp [insertK, h0, ih h]

end AssocLemmas

theorem splitOnChar_ne_nil (sep : Char) (cs : List Char) : splitOnChar sep cs ≠ [] := by
  cases cs with
  | nil => simp [splitOnChar]
  | cons c cs =>
      by_cases h : c = sep
      · simp [splitOnChar, h]
      · simp only [splitOnChar, h, if_false]
        cases splitOnChar sep cs <;> simp

theorem splitDots_ne_nil (s : String) : splitDots s ≠ [] := by
  simp [splitDots, splitOnChar_ne_nil]

theorem nestVal_get (rest : List String) (r : String) (v : PValue) :
    dgetParts [(r, nestVal rest v)] (r :: rest) .vnone = v := by
  induction rest generalizing r with
  | nil => simp [dgetParts, nestVal, alookup]
  | cons r2 rest ih =>
      show dgetParts [(r, nestVal (r2 :: rest) v)] (r :: r2 :: rest) .vnone = v
      simp only [nestVal, dgetParts, alookup, if_pos rfl]
      exact ih r2

theorem dsetParts_dgetParts (parts : List String) :
    ∀ (d : PDict) (v : PValue), parts ≠ [] →
      dgetParts (dsetParts d parts v) parts .vnone = v := by
  induction parts with
  | nil => intro d v h; exact absurd rfl h
  | cons k rest ih =>
      intro d v _
      cases rest with
      | nil => simp [dsetParts, dgetParts, alookup_insertK_self]
      | cons k2 rest' =>
          cases hl : alookup d k with
          | none =>
              simp only [dsetParts, hl, nestVal]
              simp only [dgetParts, alookup_insertK_self]
              exact nestVal_get rest' k2 v
          | some w =>
              cases w with
              | vdict d2 =>
                  simp only [dsetParts, hl]
                  simp only [dgetParts, alookup_insertK_self]
                  exact ih d2 v (List.cons_ne_nil _ _)
              | vnone =>
                  simp only [dsetParts, hl, nestVal]
                  simp only [dgetParts, alookup_insertK_self]
                  exact nestVal_get rest' k2 v
              | vbool b =>
                  simp only [dsetParts, hl, nestVal]
                  simp only [dgetParts, alookup_insertK_self]
                  exact nestVal_get rest' k2 v
              | vint n =>
                  simp only [dsetParts, hl, nestVal]
                  simp only [dgetParts, alookup_insertK_self]
                  exact nestVal_get rest' k2 v
              | vstr s =>
                  simp only [dsetParts, hl, nestVal]
                  simp only [dgetParts, alookup_insertK_self]
                  exact nestVal_get rest' k2 v
              | vlist es =>
                  simp only [dsetParts, hl, nestVal]
                  simp only [dgetParts, alookup_insertK_self]
                  exact nestVal_get rest' k2 v

/-! ## Claims -/

/-- C1: the claim says `m.get(k, d)` returns `d` whenever the dotted path
is broken at ANY level.  The code contradicts its own docstring ("The
default value is returned if any level of the key's components are not
found", utils.py:105-106): with `{"a": 1}`, `get("a.b", "d")` returns the
stored non-map value `1`, and with `{"a": {"b": 1}}`, `get("a.c", "d")`
returns `None` because the recursive call drops the caller's default.
Only a missing FIRST segment yields the default.  This theorem evaluates
the embedded code at the failing inputs. -/
theorem claim1_get_default_divergence :
    dget [("a", .vint 1)] "a.b" (.vstr "d") = .vint 1 ∧
    dget [("a", .vdict [("b", .vint 1)])] "a.c" (.vstr "d") = .vnone ∧
    dget [] "x.y" (.vstr "d") = .vstr "d" :=
  ⟨rfl, rfl, rfl⟩

/-- C5: set-then-get round-trip.  For every `DotDict` `m`, dotted key `k`
none of whose dot-separated components is empty, and value `v`:
`m.set(k, v); m.get(k)` returns `v`, regardless of the prior contents of
`m` (a non-map intermediate is overwritten wholesale by
`build_dot_value`). -/
theorem claim5_set_get_roundtrip (m : PDict) (k : String) (v : PValue)
    (_hcomp : ∀ c ∈ splitDots k, c ≠ "") :
    dget (dset m k v) k .vnone = v :=
  dsetParts_dgetParts (splitDots k) m v (splitDots_ne_nil k)

/-- C5 witness: setting `"a.b.c"` over a prior non-map value of `"a"` and
reading it back. -/
theorem claim5_witness :
    dget (dset [("a", .vint 5)] "a.b.c" (.vstr "x")) "a.b.c" .vnone = .vstr "x" :=
  claim5_set_get_roundtrip [("a", .vint 5)] "a.b.c" (.vstr "x") (by decide)

/-- C9 counterexample: the key `"a.a"` is ABSENT from `{"a": 1}` (its
`__contains__` is false), yet `get("a.a", "dflt")` returns the stored
value `1` rather than the default, and `delete("a.a")` silently deletes
the top-level `"a"` (the loop's `k == last_key` comparison matches the
repeated component on the first iteration) instead of raising.  So
neither half of the claim holds for every absent key. -/
theorem claim9_counterexample :
    dcontains [("a", .vint 1)] "a.a" = false ∧
    dget [("a", .vint 1)] "a.a" (.vstr "dflt") = .vint 1 ∧
    ddelete [("a", .vint 1)] "a.a" = some [] :=
  ⟨rfl, rfl, rfl⟩

/-- C9 amended: deletion asymmetry holds for every key whose FIRST
dot-component is absent from the map (which covers the claim's examples:
a fully-missing dotted path like "missing.key" and a missing top-level
key): `get` returns the default without error while `delete` raises a
not-found error rather than being a no-op.  It does not extend to every
absent key: when an intermediate component holds a non-map value `get`
returns that value, when a deeper component is missing `get` returns
`None` instead of the default, and a repeated component equal to the
final one can make `delete` remove an existing shallower entry. -/
theorem claim9_amended (m : PDict) (k : String) (d : PValue)
    (h : alookup m ((splitDots k).headD "") = none) :
    dget m k d = d ∧ ddelete m k = none := by
  rcases hp : splitDots k with _ | ⟨p, rest⟩
  · exact absurd hp (splitDots_ne_nil k)
  · rw [hp] at h
    simp only [List.headD_cons] at h
    constructor
    · unfold dget
      rw [hp]
      cases rest with
      | nil => simp [dgetParts, h]
      | cons k2 r => simp [dgetParts, h]
    · unfold ddelete
      rw [hp]
      by_cases hl : p = (p :: rest).getLastD ""
      · rw [ddelParts, if_pos hl, h]
        simp
      · rw [ddelParts, if_neg hl, h]

/-- C9 witness: a fully-missing dotted path on a non-empty map. -/
theorem claim9_witness :
    dget [("x", .vint 1)] "missing.key" (.vstr "z") = .vstr "z" ∧
    ddelete [("x", .vint 1)] "missing.key" = none :=
  claim9_amended [("x", .vint 1)] "missing.key" (.vstr "z") rfl

/-- C10 counterexample: `m[k]` is indeed total and equal to
`m.get(k, None)`, but the conclusion "a missing key yields None" fails:
`"a.b"` is missing from `{"a": 1}` (`__contains__` is false), yet
`m["a.b"]` is the stored non-map value `1`, not `None`. -/
theorem claim10_counterexample :
    dgetItem [("a", .vint 1)] "a.b" = .vint 1 ∧
    dcontains [("a", .vint 1)] "a.b" = false :=
  ⟨rfl, rfl⟩

/-- C10 amended: `m[k]` is total (the embedding is a function - no code
path of `__getitem__`/`get` raises) and definitionally equal to
`m.get(k, None)`; a missing key yields `None` PROVIDED the traversal
never hits a present non-map intermediate value (it breaks only at a
missing component); when it does hit one, that stored value is returned
instead. -/
theorem claim10_amended :
    (∀ (m : PDict) (k : String), dgetItem m k = dget m k .vnone) ∧
    (∀ (m : PDict) (k : String), dcontains m k = false →
      missAlongPath m (splitDots k) = true → dgetItem m k = .vnone) := by
  constructor
  · intro m k
    rfl
  · intro m k hc hm
    unfold dgetItem dget
    unfold dcontains at hc
    revert hc hm
    generalize splitDots k = parts
    intro hc hm
    induction parts generalizing m with
    | nil => simp [dgetParts]
    | cons p rest ih =>
        cases rest with
        | nil =>
            simp only [dcontainsParts] at hc
            rcases hl : alookup m p with _ | w
            · simp [dgetParts, hl]
            · rw [hl] at hc
              simp at hc
        | cons k2 r =>
            rcases hl : alookup m p with _ | w
            · simp [dgetParts, hl]
            · cases w with
              | vdict d2 =>
                  simp only [dcontainsParts, hl] at hc
                  simp only [missAlongPath, hl] at hm
                  simp only [dgetParts, hl]
                  exact ih d2 hc hm
              | vnone => simp [missAlongPath, hl] at hm
              | vbool b => simp [missAlongPath, hl] at hm
              | vint n => simp [missAlongPath, hl] at hm
              | vstr s => simp [missAlongPath, hl] at hm
              | vlist es => simp [missAlongPath, hl] at hm

/-- C10 witness: a deeper missing component inside a nested map yields
`None`. -/
theorem claim10_witness :
    dgetItem [("a", .vdict [("b", .vint 1)])] "a.c" = .vnone :=
  claim10_amended.2 [("a", .vdict [("b", .vint 1)])] "a.c" rfl rfl

theorem dget_dotfree (d : PDict) (k : String) (dflt : PValue) (h : splitDots k = [k]) :
    dget d k dflt = (alookup d k).getD dflt := by
  unfold dget
  rw [h]
  simp [dgetParts]

theorem dset_dotfree (d : PDict) (k : String) (v : PValue) (h : splitDots k = [k]) :
    dset d k v = insertK d k v := by
  unfold dset
  rw [h]
  simp [dsetParts]

theorem alookup_none_of_not_mem {α : Type} (l : List (String × α)) (k : String)
    (h : k ∉ l.map Prod.fst) : alookup l k = none := by
  induction l with
  | nil => rfl
  | cons kv rest ih =>
      obtain ⟨k0, w⟩ := kv
      simp only [List.map_cons, List.mem_cons] at h
      push_neg at h
      obtain ⟨h1, h2⟩ := h
      simp only [alookup, if_neg (fun hc : k0 = k => h1 hc.symm)]
      exact ih h2

theorem alookup_append_of_none {α : Type} (l1 l2 : List (String × α)) (x : String)
    (h : alookup l1 x = none) : alookup (l1 ++ l2) x = alookup l2 x := by
  induction l1 with
  | nil => rfl
  | cons kv rest ih =>
      obtain ⟨k0, w⟩ := kv
      by_cases h0 : k0 = x
      · simp [alookup, h0] at h
      · simp only [alookup, if_neg h0] at h
        simp only [List.cons_append, alookup, if_neg h0]
        exact ih h

/-- One step of the top-level merge loop, extracted: the assigned value
and the remaining iterations. -/
theorem mergeTop_perKey (u : PDict) : ∀ (d r : PDict),
    DotFreeKeys u → DistinctKeys u → mergeTop d u = some r →
    (∀ k', alookup u k' = none → alookup r k' = alookup d k') ∧
    (∀ k v, alookup u k = some v → alookup r k = mergeStep (alookup d k) v) := by
  induction u with
  | nil =>
      intro d r _ _ hm
      obtain rfl : d = r := by simpa [mergeTop] using hm
      exact ⟨fun k' _ => rfl, fun k v hkv => by simp [alookup] at hkv⟩
  | cons kv rest ih =>
      obtain ⟨k, v⟩ := kv
      intro d r hdf hdk hm
      have hkfree : splitDots k = [k] := hdf (k, v) (List.mem_cons_self _ _)
      have hdf' : DotFreeKeys rest := fun kv2 h2 => hdf kv2 (List.mem_cons_of_mem _ h2)
      have hdk' : DistinctKeys rest := by
        simp only [DistinctKeys, List.map_cons, List.nodup_cons] at hdk ⊢
        exact hdk.2
      have hkrest : alookup rest k = none := by
        apply alookup_none_of_not_mem
        simp only [DistinctKeys, List.map_cons, List.nodup_cons] at hdk
        exact hdk.1
      have key : ∃ newv, mergeStep (alookup d k) v = some newv ∧
          mergeTop (insertK d k newv) rest = some r := by
        cases v with
        | vdict uv =>
            simp only [mergeTop] at hm
            rcases hpm : pmergePlain (dget d k (.vdict [])) uv with _ | merged
            · simp only [hpm] at hm
              exact Option.noConfusion hm
            · simp only [hpm] at hm
              rw [dset_dotfree d k merged hkfree] at hm
              refine ⟨merged, ?_, hm⟩
              show pmergePlain ((alookup d k).getD (.vdict [])) uv = some merged
              rw [← dget_dotfree d k (.vdict []) hkfree]
              exact hpm
        | vnone =>
            simp only [mergeTop] at hm
            rw [dset_dotfree d k _ hkfree] at hm
            exact ⟨_, rfl, hm⟩
        | vbool b =>
            simp only [mergeTop] at hm
            rw [dset_dotfree d k _ hkfree] at hm
            exact ⟨_, rfl, hm⟩
        | vint n =>
            simp only [mergeTop] at hm
            rw [dset_dotfree d k _ hkfree] at hm
            exact ⟨_, rfl, hm⟩
        | vstr s =>
            simp only [mergeTop] at hm
            rw [dset_dotfree d k _ hkfree] at hm
            exact ⟨_, rfl, hm⟩
        | vlist es =>
            simp only [mergeTop] at hm
            rw [dset_dotfree d k _ hkfree] at hm
            exact ⟨_, rfl, hm⟩
      obtain ⟨newv, hstep, hrest⟩ := key
      obtain ⟨ih1, ih2⟩ := ih (insertK d k newv) r hdf' hdk' hrest
      constructor
      · intro k' hk'
        simp only [alookup] at hk'
        by_cases hkk : k = k'
        · rw [if_pos hkk] at hk'
          exact absurd hk' (by simp)
        · rw [if_neg hkk] at hk'
          rw [ih1 k' hk']
          exact alookup_insertK_ne d k newv k' (fun hc => hkk hc.symm)
      · intro k0 v0 hk0
        simp only [alookup] at hk0
        by_cases hkk : k = k0
        · rw [if_pos hkk] at hk0
          obtain rfl : v = v0 := Option.some.inj hk0
          subst hkk
          have h1 : alookup r k = some newv := by
            rw [ih1 k hkrest, alookup_insertK_self]
          rw [h1, ← hstep]
        · rw [if_neg hkk] at hk0
          rw [ih2 k0 v0 hk0, alookup_insertK_ne d k newv k0 (fun hc => hkk hc.symm)]

/-- Merging a well-formed plain dict `u` into a dict whose keys are all
disjoint from `u` appends `u` verbatim; in particular merging into `{}`
reproduces `u`. -/
theorem pmergePlain_acc (n : Nat) : ∀ (u acc : PDict), sizeOf u ≤ n →
    wfVal (.vdict u) = true → (∀ kv ∈ u, alookup acc kv.1 = none) →
    pmergePlain (.vdict acc) u = some (.vdict (acc ++ u)) := by
  induction n with
  | zero =>
      intro u acc hsz _ _
      cases u with
      | nil => simp [pmergePlain]
      | cons kv rest =>
          exfalso
          simp only [List.cons.sizeOf_spec] at hsz
          omega
  | succ n ihn =>
      intro u acc hsz hwf hdisj
      cases u with
      | nil => simp [pmergePlain]
      | cons kv rest =>
          obtain ⟨k, v⟩ := kv
          have hwf3 : (!(rest.any fun kv2 => kv2.1 == k)) = true ∧ wfVal v = true ∧
              wfVal (.vdict rest) = true := by
            simpa [wfVal, Bool.and_eq_true, and_assoc] using hwf
          obtain ⟨hnot, hwfv, hwfrest⟩ := hwf3
          have hne : ∀ kv2 ∈ rest, kv2.1 ≠ k := by
            intro kv2 hmem hc
            simp only [Bool.not_eq_eq_eq_not, Bool.not_true, List.any_eq_false] at hnot
            exact absurd (by simpa using hc) (hnot kv2 hmem)
          have hkacc : alookup acc k = none := hdisj (k, v) (List.mem_cons_self _ _)
          have hsz' : sizeOf rest ≤ n := by
            simp at hsz
            omega
          have hdisj2 : ∀ (w : PValue), ∀ kv2 ∈ rest, alookup (acc ++ [(k, w)]) kv2.1 = none := by
            intro w kv2 hmem
            have hx : alookup acc kv2.1 = none := hdisj kv2 (List.mem_cons_of_mem _ hmem)
            rw [alookup_append_of_none acc [(k, w)] kv2.1 hx]
            have hne2 : ¬(k = kv2.1) := fun hc => hne kv2 hmem hc.symm
            simp [alookup, hne2]
          cases v with
          | vdict uv =>
              have hszuv : sizeOf uv ≤ n := by
                simp at hsz
                omega
              have hsub : pmergePlain (.vdict []) uv = some (.vdict uv) := by
                simpa using ihn uv [] hszuv hwfv (fun kv2 _ => rfl)
              have hrest := ihn rest (acc ++ [(k, .vdict uv)]) hsz' hwfrest (hdisj2 _)
              simp only [pmergePlain, hkacc, Option.getD_none, hsub,
                insertK_append_of_absent acc k _ hkacc, hrest]
              simp
          | vnone =>
              have hrest := ihn rest (acc ++ [(k, .vnone)]) hsz' hwfrest (hdisj2 _)
              simp only [pmergePlain, insertK_append_of_absent acc k _ hkacc, hrest]
              simp
          | vbool b =>
              have hrest := ihn rest (acc ++ [(k, .vbool b)]) hsz' hwfrest (hdisj2 _)
              simp only [pmergePlain, insertK_append_of_absent acc k _ hkacc, hrest]
              simp
          | vint m =>
              have hrest := ihn rest (acc ++ [(k, .vint m)]) hsz' hwfrest (hdisj2 _)
              simp only [pmergePlain, insertK_append_of_absent acc k _ hkacc, hrest]
              simp
          | vstr s =>
              have hrest := ihn rest (acc ++ [(k, .vstr s)]) hsz' hwfrest (hdisj2 _)
              simp only [pmergePlain, insertK_append_of_absent acc k _ hkacc, hrest]
              simp
          | vlist es =>
              have hrest := ihn rest (acc ++ [(k, .vlist es)]) hsz' hwfrest (hdisj2 _)
              simp only [pmergePlain, insertK_append_of_absent acc k _ hkacc, hrest]
              simp

/-- A successful recursive `_merge` into a dict returns a dict and
preserves every key absent from the source. -/
theorem pmergePlain_preserve (n : Nat) : ∀ (u dd : PDict) (m : PValue), sizeOf u ≤ n →
    pmergePlain (.vdict dd) u = some m →
    ∃ md, m = .vdict md ∧ ∀ k', alookup u k' = none → alookup md k' = alookup dd k' := by
  induction n with
  | zero =>
      intro u dd m hsz hpm
      cases u with
      | nil =>
          simp only [pmergePlain] at hpm
          exact ⟨dd, (Option.some.inj hpm).symm, fun k' _ => rfl⟩
      | cons kv rest =>
          exfalso
          simp only [List.cons.sizeOf_spec] at hsz
          omega
  | succ n ihn =>
      intro u dd m hsz hpm
      cases u with
      | nil =>
          simp only [pmergePlain] at hpm
          exact ⟨dd, (Option.some.inj hpm).symm, fun k' _ => rfl⟩
      | cons kv rest =>
          obtain ⟨k, v⟩ := kv
          have hsz' : sizeOf rest ≤ n := by
            simp at hsz
            omega
          have cont : ∀ (w : PValue), pmergePlain (.vdict (insertK dd k w)) rest = some m →
              ∃ md, m = .vdict md ∧
                ∀ k', alookup ((k, v) :: rest) k' = none → alookup md k' = alookup dd k' := by
            intro w hres
            obtain ⟨md, rfl, hpres⟩ := ihn rest (insertK dd k w) m hsz' hres
            refine ⟨md, rfl, ?_⟩
            intro k' hk'
            simp only [alookup] at hk'
            by_cases hkk : k = k'
            · rw [if_pos hkk] at hk'
              exact absurd hk' (by simp)
            · rw [if_neg hkk] at hk'
              rw [hpres k' hk']
              exact alookup_insertK_ne dd k w k' (fun hc => hkk hc.symm)
          cases v with
          | vdict uv =>
              simp only [pmergePlain] at hpm
              rcases h1 : pmergePlain ((alookup dd k).getD (.vdict [])) uv with _ | w
              · rw [h1] at hpm
                exact absurd hpm (by simp)
              · rw [h1] at hpm
                exact cont w hpm
          | vnone =>
              simp only [pmergePlain] at hpm
              exact cont _ hpm
          | vbool b =>
              simp only [pmergePlain] at hpm
              exact cont _ hpm
          | vint m0 =>
              simp only [pmergePlain] at hpm
              exact cont _ hpm
          | vstr s =>
              simp only [pmergePlain] at hpm
              exact cont _ hpm
          | vlist es =>
              simp only [pmergePlain] at hpm
              exact cont _ hpm

/-- C4 counterexample: merging `{"foo": {"bar": {"baz": 1}}}` into
`{"foo": 1}` does NOT replace the scalar with the incoming map: the
recursive call `_merge(1, {"bar": {"baz": 1}})` reaches
`d.get("bar", {})` with `d = 1` and raises `AttributeError` (modelled
`none`), so `merge` produces no result at all. -/
theorem claim4_counterexample :
    mergeTop [("foo", .vint 1)] [("foo", .vdict [("bar", .vdict [("baz", .vint 1)])])] =
      none := by
  have h1 : dget [("foo", PValue.vint 1)] "foo" (.vdict []) = .vint 1 := rfl
  have h2 : pmergePlain (.vint 1) [("bar", PValue.vdict [("baz", PValue.vint 1)])] = none := by
    simp [pmergePlain]
  simp only [mergeTop, h1, h2]

/-- C4 amended: for a source whose keys are dot-free and distinct, and a
successful merge `m.merge(s) = r`:
(1) keys absent from `s` are preserved;
(2) a non-map incoming value wins outright (including over a map);
(3) when both values are maps they are merged recursively, and that
recursive merge preserves the keys absent from the incoming map;
(4) an incoming map lands verbatim on an absent key (for a well-formed
incoming map) - in particular merging `{"a":{"b":1}}` then
`{"a":{"c":2}}` into `{}` yields `{"a":{"b":1,"c":2}}`;
(5) an incoming map whose FIRST entry is a non-map also replaces an
existing non-map value;
but an incoming map whose first entry is a map crashes on a non-map
existing value (the counterexample), and (6) an EMPTY incoming map
leaves an existing non-map value unchanged rather than replacing it. -/
theorem claim4_merge_amended :
    (∀ (d u r : PDict) (k : String), DotFreeKeys u → DistinctKeys u →
        mergeTop d u = some r → alookup u k = none → alookup r k = alookup d k) ∧
    (∀ (d u r : PDict) (k : String) (v : PValue), DotFreeKeys u → DistinctKeys u →
        mergeTop d u = some r → alookup u k = some v → isDictV v = false →
        alookup r k = some v) ∧
    (∀ (d u r : PDict) (k : String) (uv dd : PDict), DotFreeKeys u → DistinctKeys u →
        mergeTop d u = some r → alookup u k = some (.vdict uv) →
        alookup d k = some (.vdict dd) →
        alookup r k = pmergePlain (.vdict dd) uv ∧
        (∀ (md : PDict) (k2 : String), pmergePlain (.vdict dd) uv = some (.vdict md) →
          alookup uv k2 = none → alookup md k2 = alookup dd k2)) ∧
    (∀ (d u r : PDict) (k : String) (uv : PDict), DotFreeKeys u → DistinctKeys u →
        mergeTop d u = some r → alookup u k = some (.vdict uv) → alookup d k = none →
        wfVal (.vdict uv) = true → alookup r k = some (.vdict uv)) ∧
    (∀ (d u r : PDict) (k k2 : String) (v2 : PValue) (uvrest : PDict) (w : PValue),
        DotFreeKeys u → DistinctKeys u →
        mergeTop d u = some r → alookup u k = some (.vdict ((k2, v2) :: uvrest)) →
        alookup d k = some w → isDictV w = false → isDictV v2 = false →
        wfVal (.vdict ((k2, v2) :: uvrest)) = true →
        alookup r k = some (.vdict ((k2, v2) :: uvrest))) ∧
    (∀ (d u r : PDict) (k : String) (w : PValue), DotFreeKeys u → DistinctKeys u →
        mergeTop d u = some r → alookup u k = some (.vdict []) → alookup d k = some w →
        alookup r k = some w) := by
  refine ⟨?_, ?_, ?_, ?_, ?_, ?_⟩
  · intro d u r k hdf hdk hm hk
    exact (mergeTop_perKey u d r hdf hdk hm).1 k hk
  · intro d u r k v hdf hdk hm hk hv
    have h := (mergeTop_perKey u d r hdf hdk hm).2 k v hk
    cases v with
    | vdict uv => simp [isDictV] at hv
    | vnone => exact h
    | vbool b => exact h
    | vint n => exact h
    | vstr s => exact h
    | vlist es => exact h
  · intro d u r k uv dd hdf hdk hm hku hkd
    have h := (mergeTop_perKey u d r hdf hdk hm).2 k (.vdict uv) hku
    rw [hkd] at h
    refine ⟨h, ?_⟩
    intro md k2 hpm hk2
    obtain ⟨md', hmd', hpres⟩ :=
      pmergePlain_preserve (sizeOf uv) uv dd (.vdict md) le_rfl hpm
    obtain rfl : md' = md := by
      injection hmd' with h'
      exact h'.symm
    exact hpres k2 hk2
  · intro d u r k uv hdf hdk hm hku hkd hwf
    have h := (mergeTop_perKey u d r hdf hdk hm).2 k (.vdict uv) hku
    rw [hkd] at h
    rw [h]
    show pmergePlain (.vdict []) uv = some (.vdict uv)
    simpa using pmergePlain_acc (sizeOf uv) uv [] le_rfl hwf (fun kv2 _ => rfl)
  · intro d u r k k2 v2 uvrest w hdf hdk hm hku hkd hw hv2 hwf
    have h := (mergeTop_perKey u d r hdf hdk hm).2 k (.vdict ((k2, v2) :: uvrest)) hku
    rw [hkd] at h
    rw [h]
    have hwf3 : (!(uvrest.any fun kv3 => kv3.1 == k2)) = true ∧ wfVal v2 = true ∧
        wfVal (.vdict uvrest) = true := by
      simpa [wfVal, Bool.and_eq_true, and_assoc] using hwf
    obtain ⟨hnot, _, hwfrest⟩ := hwf3
    have hdisj : ∀ kv3 ∈ uvrest, alookup [(k2, v2)] kv3.1 = none := by
      intro kv3 hmem
      have hne : ¬(kv3.1 = k2) := by
        intro hc
        simp only [Bool.not_eq_eq_eq_not, Bool.not_true, List.any_eq_false] at hnot
        exact absurd (by simpa using hc) (hnot kv3 hmem)
      have hne2 : ¬(k2 = kv3.1) := fun hc => hne hc.symm
      simp [alookup, hne2]
    have hstep : ∀ (w' : PValue), isDictV w' = false →
        pmergePlain w' ((k2, v2) :: uvrest) =
          pmergePlain (.vdict [(k2, v2)]) uvrest := by
      intro w' hw'
      cases v2 with
      | vdict uv2 => simp [isDictV] at hv2
      | vnone => cases w' <;> simp [pmergePlain, isDictV] at hw' ⊢
      | vbool b => cases w' <;> simp [pmergePlain, isDictV] at hw' ⊢
      | vint n => cases w' <;> simp [pmergePlain, isDictV] at hw' ⊢
      | vstr s => cases w' <;> simp [pmergePlain, isDictV] at hw' ⊢
      | vlist es => cases w' <;> simp [pmergePlain, isDictV] at hw' ⊢
    show pmergePlain w ((k2, v2) :: uvrest) = some (.vdict ((k2, v2) :: uvrest))
    rw [hstep w hw]
    simpa using pmergePlain_acc (sizeOf uvrest) uvrest [(k2, v2)] le_rfl hwfrest hdisj
  · intro d u r k w hdf hdk hm hku hkd
    have h := (mergeTop_perKey u d r hdf hdk hm).2 k (.vdict []) hku
    rw [hkd] at h
    rw [h]
    show pmergePlain w [] = some w
    simp [pmergePlain]

/-- C4 witness: the spec's example.  After the first merge the map is
`{"a": {"b": 1}}`; merging `{"a": {"c": 2}}` combines the branches to
`{"a": {"b": 1, "c": 2}}`. -/
theorem claim4_witness :
    alookup [("a", PValue.vdict [("b", PValue.vint 1), ("c", PValue.vint 2)])] "a" =
      some (.vdict [("b", .vint 1), ("c", .vint 2)]) := by
  have h2 : pmergePlain (.vdict [("b", PValue.vint 1)]) [("c", PValue.vint 2)] =
      some (.vdict [("b", PValue.vint 1), ("c", PValue.vint 2)]) := by
    simp [pmergePlain, insertK]
  have hmrg : mergeTop [("a", PValue.vdict [("b", PValue.vint 1)])]
      [("a", PValue.vdict [("c", PValue.vint 2)])] =
      some [("a", PValue.vdict [("b", PValue.vint 1), ("c", PValue.vint 2)])] := by
    have h1 : dget [("a", PValue.vdict [("b", PValue.vint 1)])] "a" (.vdict []) =
        .vdict [("b", PValue.vint 1)] := rfl
    simp only [mergeTop, h1, h2]
    rfl
  have h := (claim4_merge_amended.2.2.1
    [("a", PValue.vdict [("b", PValue.vint 1)])]
    [("a", PValue.vdict [("c", PValue.vint 2)])]
    [("a", PValue.vdict [("b", PValue.vint 1), ("c", PValue.vint 2)])]
    "a" [("c", PValue.vint 2)] [("b", PValue.vint 1)]
    (by decide) (by decide) hmrg rfl rfl).1
  exact h.trans h2

theorem alookup_insertK_isSome {α : Type} (d : List (String × α)) (n k : String) (v : α)
    (h : (alookup d k).isSome = true) : (alookup (insertK d n v) k).isSome = true := by
  by_cases hkn : k = n
  · subst hkn
    rw [alookup_insertK_self]
    rfl
  · rw [alookup_insertK_ne d n v k hkn]
    exact h

theorem applyDefault_isSome (acc : PDict) (n k : String) (dflt : Option PValue)
    (h : (alookup acc k).isSome = true) :
    (alookup (applyDefault acc n dflt) k).isSome = true := by
  cases dflt with
  | none => exact h
  | some v => exact alookup_insertK_isSome acc n k v h

/-- Every error `build_defaults` raises is an `InvalidSchemeError`, also
out of the recursion into a nested scheme. -/
theorem buildDefaultsGo_error_shape (n : Nat) : ∀ (xs : List SNode) (acc : PDict) (e : BErr),
    sizeOf xs ≤ n → buildDefaultsGo acc xs = .error e → e = .invalidScheme := by
  induction n with
  | zero =>
      intro xs acc e hsz h
      cases xs with
      | nil => simp [buildDefaultsGo] at h
      | cons a rest =>
          exfalso
          simp only [List.cons.sizeOf_spec] at hsz
          omega
  | succ n ihn =>
      intro xs acc e hsz h
      cases xs with
      | nil => simp [buildDefaultsGo] at h
      | cons a rest =>
          have hszrest : sizeOf rest ≤ n := by
            simp only [List.cons.sizeOf_spec] at hsz
            omega
          cases a with
          | option nm dflt ft be =>
              simp only [buildDefaultsGo] at h
              exact ihn rest _ e hszrest h
          | listOption nm dflt be =>
              simp only [buildDefaultsGo] at h
              exact ihn rest _ e hszrest h
          | notANode =>
              simp only [buildDefaultsGo] at h
              exact (Except.error.inj h).symm
          | dictOption nm sch dflt be =>
              cases sch with
              | none =>
                  simp only [buildDefaultsGo] at h
                  exact ihn rest _ e hszrest h
              | some sub =>
                  have hszsub : sizeOf sub ≤ n := by
                    simp at hsz
                    omega
                  cases hsub : buildDefaultsGo [] sub with
                  | error e2 =>
                      simp only [buildDefaultsGo, hsub] at h
                      rw [← Except.error.inj h]
                      exact ihn sub [] e2 hszsub hsub
                  | ok b =>
                      simp only [buildDefaultsGo, hsub] at h
                      exact ihn rest _ e hszrest h

/-- Splitting the `build_defaults` loop at a list append. -/
theorem buildDefaultsGo_append_ok : ∀ (xs ys : List SNode) (acc r : PDict),
    buildDefaultsGo acc (xs ++ ys) = .ok r →
    ∃ acc', buildDefaultsGo acc xs = .ok acc' ∧ buildDefaultsGo acc' ys = .ok r := by
  intro xs
  induction xs with
  | nil =>
      intro ys acc r h
      exact ⟨acc, by simp [buildDefaultsGo], h⟩
  | cons a rest ih =>
      intro ys acc r h
      cases a with
      | option nm dflt ft be =>
          simp only [List.cons_append, buildDefaultsGo] at h
          obtain ⟨acc', h1, h2⟩ := ih ys _ r h
          exact ⟨acc', by simp only [buildDefaultsGo]; exact h1, h2⟩
      | listOption nm dflt be =>
          simp only [List.cons_append, buildDefaultsGo] at h
          obtain ⟨acc', h1, h2⟩ := ih ys _ r h
          exact ⟨acc', by simp only [buildDefaultsGo]; exact h1, h2⟩
      | notANode =>
          simp only [List.cons_append, buildDefaultsGo] at h
          exact Except.noConfusion h
      | dictOption nm sch dflt be =>
          cases sch with
          | none =>
              simp only [List.cons_append, buildDefaultsGo] at h
              obtain ⟨acc', h1, h2⟩ := ih ys _ r h
              exact ⟨acc', by simp only [buildDefaultsGo]; exact h1, h2⟩
          | some sub =>
              cases hsub : buildDefaultsGo [] sub with
              | error e2 =>
                  simp only [List.cons_append, buildDefaultsGo, hsub] at h
                  exact Except.noConfusion h
              | ok b =>
                  simp only [List.cons_append, buildDefaultsGo, hsub] at h
                  obtain ⟨acc', h1, h2⟩ := ih ys _ r h
                  refine ⟨acc', ?_, h2⟩
                  simp only [buildDefaultsGo, hsub]
                  exact h1

/-- A key already present in the accumulator survives the rest of the
`build_defaults` loop. -/
theorem buildDefaultsGo_mono : ∀ (xs : List SNode) (acc r : PDict) (k : String),
    (alookup acc k).isSome = true → buildDefaultsGo acc xs = .ok r →
    (alookup r k).isSome = true := by
  intro xs
  induction xs with
  | nil =>
      intro acc r k hk h
      have : acc = r := by simpa [buildDefaultsGo] using h
      exact this ▸ hk
  | cons a rest ih =>
      intro acc r k hk h
      cases a with
      | option nm dflt ft be =>
          simp only [buildDefaultsGo] at h
          exact ih _ r k (applyDefault_isSome acc nm k dflt hk) h
      | listOption nm dflt be =>
          simp only [buildDefaultsGo] at h
          exact ih _ r k (applyDefault_isSome acc nm k dflt hk) h
      | notANode =>
          simp only [buildDefaultsGo] at h
          exact Except.noConfusion h
      | dictOption nm sch dflt be =>
          cases sch with
          | none =>
              simp only [buildDefaultsGo] at h
              exact ih _ r k (applyDefault_isSome acc nm k dflt hk) h
          | some sub =>
              cases hsub : buildDefaultsGo [] sub with
              | error e2 =>
                  simp only [buildDefaultsGo, hsub] at h
                  exact Except.noConfusion h
              | ok b =>
                  simp only [buildDefaultsGo, hsub] at h
                  cases hb : b.isEmpty with
                  | true =>
                      rw [hb] at h
                      simp only [if_true] at h
                      exact ih _ r k (applyDefault_isSome acc nm k dflt hk) h
                  | false =>
                      rw [hb] at h
                      simp only [Bool.false_eq_true, if_false] at h
                      exact ih _ r k
                        (alookup_insertK_isSome _ nm k _ (applyDefault_isSome acc nm k dflt hk)) h

/-- An element that is not a recognised node makes `build_defaults`
raise `InvalidSchemeError`. -/
theorem buildDefaultsGo_notANode : ∀ (xs : List SNode) (acc : PDict),
    SNode.notANode ∈ xs → buildDefaultsGo acc xs = .error .invalidScheme := by
  intro xs
  induction xs with
  | nil =>
      intro acc h
      simp at h
  | cons a rest ih =>
      intro acc h
      cases a with
      | notANode => simp [buildDefaultsGo]
      | option nm dflt ft be =>
          cases h with
          | tail _ hmem =>
              simp only [buildDefaultsGo]
              exact ih _ hmem
      | listOption nm dflt be =>
          cases h with
          | tail _ hmem =>
              simp only [buildDefaultsGo]
              exact ih _ hmem
      | dictOption nm sch dflt be =>
          cases h with
          | tail _ hmem =>
              cases sch with
              | none =>
                  simp only [buildDefaultsGo]
                  exact ih _ hmem
              | some sub =>
                  cases hsub : buildDefaultsGo [] sub with
                  | error e2 =>
                      have he : e2 = .invalidScheme :=
                        buildDefaultsGo_error_shape (sizeOf sub) sub [] e2 le_rfl hsub
                      simp only [buildDefaultsGo, hsub, he]
                  | ok b =>
                      simp only [buildDefaultsGo, hsub]
                      exact ih _ hmem

/-- C6: `Scheme.build_defaults` (i) records a DictOption's name whenever
the nested scheme's defaults are non-empty, even with no own default
(declared default `none` models the `NoDefault` sentinel); when the
DictOption is the last element its entry is exactly the nested defaults
dict; and (ii) raises `InvalidSchemeError` whenever any element of the
args list is not a recognised scheme node. -/
theorem claim6_build_defaults :
    (∀ (pre post : List SNode) (n : String) (sub : List SNode) (be : Bool) (b r : PDict),
        buildDefaults sub = .ok b → b ≠ [] →
        buildDefaults (pre ++ SNode.dictOption n (some sub) none be :: post) = .ok r →
        (alookup r n).isSome = true) ∧
    (∀ (pre : List SNode) (n : String) (sub : List SNode) (be : Bool) (b : PDict),
        buildDefaults sub = .ok b → b ≠ [] →
        ∀ r, buildDefaults (pre ++ [SNode.dictOption n (some sub) none be]) = .ok r →
        alookup r n = some (.vdict b)) ∧
    (∀ (args : List SNode), SNode.notANode ∈ args →
        buildDefaults args = .error .invalidScheme) := by
  have hstep : ∀ (acc' : PDict) (n : String) (sub : List SNode) (be : Bool) (b : PDict)
      (post : List SNode) (r : PDict), buildDefaults sub = .ok b → b ≠ [] →
      buildDefaultsGo acc' (SNode.dictOption n (some sub) none be :: post) = .ok r →
      buildDefaultsGo (insertK acc' n (.vdict b)) post = .ok r := by
    intro acc' n sub be b post r hsub hbne h2
    have hbe : b.isEmpty = false := by
      cases b with
      | nil => exact absurd rfl hbne
      | cons x xs => rfl
    unfold buildDefaults at hsub
    simp only [buildDefaultsGo, hsub, hbe, Bool.false_eq_true, if_false, applyDefault] at h2
    exact h2
  refine ⟨?_, ?_, ?_⟩
  · intro pre post n sub be b r hsub hbne h
    unfold buildDefaults at h
    obtain ⟨acc', h1, h2⟩ := buildDefaultsGo_append_ok pre _ [] r h
    have h3 := hstep acc' n sub be b post r hsub hbne h2
    exact buildDefaultsGo_mono post _ r n
      (by rw [alookup_insertK_self]; rfl) h3
  · intro pre n sub be b hsub hbne r h
    unfold buildDefaults at h
    obtain ⟨acc', h1, h2⟩ := buildDefaultsGo_append_ok pre _ [] r h
    have h3 := hstep acc' n sub be b [] r hsub hbne h2
    have : insertK acc' n (.vdict b) = r := by simpa [buildDefaultsGo] using h3
    rw [← this]
    exact alookup_insertK_self acc' n (.vdict b)
  · intro args hmem
    exact buildDefaultsGo_notANode args [] hmem

/-- C6 witness: the spec's example
`DictOption("bar", Scheme(Option("test", default=True)))` yields
defaults `{"bar": {"test": True}}`. -/
theorem claim6_witness :
    alookup [("bar", PValue.vdict [("test", PValue.vbool true)])] "bar" =
      some (.vdict [("test", PValue.vbool true)]) := by
  have hsub : buildDefaults [SNode.option "test" (some (PValue.vbool true)) none .unset] =
      .ok [("test", PValue.vbool true)] := by
    simp [buildDefaults, buildDefaultsGo, applyDefault, insertK]
  have hmain : buildDefaults
      ([] ++ [SNode.dictOption "bar"
        (some [SNode.option "test" (some (PValue.vbool true)) none .unset]) none false]) =
      .ok [("bar", PValue.vdict [("test", PValue.vbool true)])] := by
    simp [buildDefaults, buildDefaultsGo, applyDefault, insertK, hsub]
  exact claim6_build_defaults.2.1 [] "bar"
    [SNode.option "test" (some (PValue.vbool true)) none .unset] false
    [("test", PValue.vbool true)] hsub (List.cons_ne_nil _ _)
    [("bar", PValue.vdict [("test", PValue.vbool true)])] hmain

/-- C7: the resolution order of `Option.parse_env`.
`bind_env=False` never binds; `bind_env=True` looks up the derived name
`uppercase(prefix) + uppercase(key with dots replaced by underscores)`
and casts a found value via the declared type; an explicit string
`bind_env` looks up that literal variable name, ignoring the prefix
entirely (it does not occur in the result); `bind_env` absent binds only
when the scheme-level `auto_env` flag is set, and then behaves exactly
as the `True` case. -/
theorem claim7_parse_env_resolution :
    (∀ (env : Env) (name : String) (ft : Option PType) (key : Option String)
        (pfx : Option String) (autoEnv : Bool),
        optionParseEnv env name ft .no key pfx autoEnv = .ok none) ∧
    (∀ (env : Env) (name : String) (ft : Option PType) (key : Option String)
        (p : String) (autoEnv : Bool), p ≠ "" →
        optionParseEnv env name ft .yes key (some p) autoEnv =
          (match alookup env
              (asciiUpper p ++ asciiUpper (dotsToUnders (key.getD name))) with
            | some v => (castValue ft v).map some
            | none => .ok none)) ∧
    (∀ (env : Env) (name : String) (ft : Option PType) (s : String) (key : Option String)
        (pfx : Option String) (autoEnv : Bool),
        optionParseEnv env name ft (.var s) key pfx autoEnv =
          (match alookup env s with
            | some v => (castValue ft v).map some
            | none => .ok none)) ∧
    (∀ (env : Env) (name : String) (ft : Option PType) (key : Option String)
        (pfx : Option String),
        optionParseEnv env name ft .unset key pfx false = .ok none) ∧
    (∀ (env : Env) (name : String) (ft : Option PType) (key : Option String)
        (pfx : Option String),
        optionParseEnv env name ft .unset key pfx true =
          optionParseEnv env name ft .yes key pfx true) := by
  refine ⟨fun _ _ _ _ _ _ => rfl, ?_, fun _ _ _ _ _ _ _ => rfl, fun _ _ _ _ _ => rfl,
    fun _ _ _ _ _ => rfl⟩
  intro env name ft key p autoEnv hp
  simp only [optionParseEnv, envLookupCast, deriveEnvKey]
  rw [if_neg hp]

/-- C7 witness: `bind_env=True` with prefix `"app_"` and key `"foo.bar"`
reads `APP_FOO_BAR` and casts it with the declared int type. -/
theorem claim7_witness :
    optionParseEnv [("APP_FOO_BAR", "7")] "foo" (some .tint) .yes (some "foo.bar")
      (some "app_") false = .ok (some (.vint 7)) := by
  have h := claim7_parse_env_resolution.2.1 [("APP_FOO_BAR", "7")] "foo" (some .tint)
    (some "foo.bar") "app_" false (by decide)
  exact h.trans rfl

/-- C8: for a bool-typed option, `cast` compares the lower-cased string
against the literal `"true"`: exactly that string (case-insensitively)
gives `True`, and everything else - including `"False"`, `"1"` and the
empty string - gives `False`.  In particular an option bound via
`bind_env="FOO_BOOL"` with `field_type=bool` resolves the environment
value `"False"` to boolean false, not Python truthiness. -/
theorem claim8_bool_cast :
    (∀ v : String, asciiLower v = "true" → castValue (some .tbool) v = .ok (.vbool true)) ∧
    (∀ v : String, asciiLower v ≠ "true" → castValue (some .tbool) v = .ok (.vbool false)) ∧
    castValue (some .tbool) "False" = .ok (.vbool false) ∧
    castValue (some .tbool) "1" = .ok (.vbool false) ∧
    castValue (some .tbool) "" = .ok (.vbool false) ∧
    optionParseEnv [("FOO_BOOL", "False")] "foo" (some .tbool) (.var "FOO_BOOL")
      (some "foo") none false = .ok (some (.vbool false)) := by
  refine ⟨?_, ?_, rfl, rfl, rfl, rfl⟩
  · intro v h
    simp [castValue, h]
  · intro v h
    simp [castValue, h]

/-- C8 witness: the general lower-case rule applied to `"TRUE"`. -/
theorem claim8_witness :
    castValue (some PType.tbool) "TRUE" = .ok (.vbool true) :=
  claim8_bool_cast.1 "TRUE" rfl

theorem castValue_error_shape (ft : Option PType) (v : String) (e : BErr)
    (h : castValue ft v = .error e) : e = .castFailed ∨ e = .unsupportedCastType := by
  cases ft with
  | none => exact Except.noConfusion h
  | some t =>
      cases t with
      | tstr => exact Except.noConfusion h
      | tbool => exact Except.noConfusion h
      | tint =>
          unfold castValue at h
          cases hp : parseIntPy v with
          | some n =>
              simp only [hp] at h
              exact Except.noConfusion h
          | none =>
              simp only [hp] at h
              exact Or.inl (Except.error.inj h).symm
      | tother =>
          unfold castValue at h
          exact Or.inr (Except.error.inj h).symm

theorem envLookupCast_error_shape (env : Env) (ft : Option PType) (ek : String) (e : BErr)
    (h : envLookupCast env ft ek = .error e) : e = .castFailed ∨ e = .unsupportedCastType := by
  unfold envLookupCast at h
  cases ha : alookup env ek with
  | none =>
      simp only [ha] at h
      exact Except.noConfusion h
  | some v =>
      simp only [ha] at h
      cases hc : castValue ft v with
      | error e2 =>
          rw [hc] at h
          simp only [Except.map] at h
          rw [← Except.error.inj h]
          exact castValue_error_shape ft v e2 hc
      | ok w =>
          rw [hc] at h
          simp only [Except.map] at h
          exact Except.noConfusion h

theorem dictOptionParseEnv_ne_error (env : Env) (name : String) (be : Bool)
    (key pfx : Option String) (e : BErr) :
    dictOptionParseEnv env name be key pfx ≠ .error e := by
  intro h
  unfold dictOptionParseEnv at h
  cases be with
  | false => simp at h
  | true =>
      simp only [if_true] at h
      split at h <;> split at h <;> simp at h

theorem listOptionParseEnv_ne_error (env : Env) (name : String) (be : Bool)
    (key pfx : Option String) (e : BErr) :
    listOptionParseEnv env name be key pfx ≠ .error e := by
  intro h
  unfold listOptionParseEnv at h
  cases be with
  | false => simp at h
  | true =>
      simp only [if_true] at h
      split at h
      · split at h <;> simp at h
      · simp at h

theorem optionParseEnv_error_shape (env : Env) (name : String) (ft : Option PType)
    (be : BindEnv) (key pfx : Option String) (auto : Bool) (e : BErr)
    (h : optionParseEnv env name ft be key pfx auto = .error e) :
    e = .castFailed ∨ e = .unsupportedCastType := by
  cases be with
  | no => exact Except.noConfusion h
  | yes => exact envLookupCast_error_shape env ft _ e h
  | var s => exact envLookupCast_error_shape env ft s e h
  | unset =>
      cases auto with
      | false => exact Except.noConfusion h
      | true => exact envLookupCast_error_shape env ft _ e h

theorem nodeParseEnv_error_shape (env : Env) (node : SNode) (key pfx : Option String)
    (auto : Bool) (e : BErr) (h : nodeParseEnv env node key pfx auto = .error e) :
    e = .castFailed ∨ e = .unsupportedCastType := by
  cases node with
  | option n d ft be => exact optionParseEnv_error_shape env n ft be key pfx auto e h
  | listOption n d be => exact absurd h (listOptionParseEnv_ne_error env n be key pfx e)
  | dictOption n sch d be => exact absurd h (dictOptionParseEnv_ne_error env n be key pfx e)
  | notANode => exact Except.noConfusion h

theorem buildEnvCfg_error_shape (env : Env) : ∀ (flat : List (String × SNode))
    (pfx : Option String) (auto : Bool) (acc : PDict) (e : BErr),
    buildEnvCfg env flat pfx auto acc = .error e →
    e = .castFailed ∨ e = .unsupportedCastType := by
  intro flat
  induction flat with
  | nil =>
      intro pfx auto acc e h
      exact Except.noConfusion h
  | cons kv rest ih =>
      intro pfx auto acc e h
      obtain ⟨k, node⟩ := kv
      cases hn : nodeParseEnv env node (some k) pfx auto with
      | error e2 =>
          simp only [buildEnvCfg, hn] at h
          rw [← Except.error.inj h]
          exact nodeParseEnv_error_shape env node (some k) pfx auto e2 hn
      | ok o =>
          cases o with
          | none =>
              simp only [buildEnvCfg, hn] at h
              exact ih pfx auto acc e h
          | some v =>
              simp only [buildEnvCfg, hn] at h
              exact ih pfx auto _ e h

theorem parseDefaultPhase_error_shape (st : BisonState) (e : BErr)
    (h : parseDefaultPhase st = .error e) : e = .invalidScheme := by
  unfold parseDefaultPhase at h
  cases hs : st.scheme with
  | none =>
      simp only [hs] at h
      exact Except.noConfusion h
  | some sch =>
      simp only [hs] at h
      cases hb : buildDefaults sch with
      | error e2 =>
          simp only [hb] at h
          rw [← Except.error.inj h]
          exact buildDefaultsGo_error_shape (sizeOf sch) sch [] e2 le_rfl hb
      | ok d =>
          simp only [hb] at h
          exact Except.noConfusion h

theorem parseDefaultPhase_preserves (st st1 : BisonState)
    (h : parseDefaultPhase st = .ok st1) :
    st1.configPaths = st.configPaths ∧ st1.configName = st.configName := by
  unfold parseDefaultPhase at h
  cases hs : st.scheme with
  | none =>
      simp only [hs] at h
      rw [← Except.ok.inj h]
      exact ⟨rfl, rfl⟩
  | some sch =>
      simp only [hs] at h
      cases hb : buildDefaults sch with
      | error e2 =>
          simp only [hb] at h
          exact Except.noConfusion h
      | ok d =>
          simp only [hb] at h
          rw [← Except.ok.inj h]
          exact ⟨rfl, rfl⟩

theorem parseEnvPhase_error_shape (env : Env) (st : BisonState) (e : BErr)
    (h : parseEnvPhase env st = .error e) : e = .castFailed ∨ e = .unsupportedCastType := by
  unfold parseEnvPhase at h
  cases hs : st.scheme with
  | none =>
      simp only [hs] at h
      exact Except.noConfusion h
  | some sch =>
      simp only [hs] at h
      cases hb : buildEnvCfg env (flattenArgs sch) (normalizePfx st.envPfx) st.autoEnv [] with
      | error e2 =>
          simp only [hb] at h
          rw [← Except.error.inj h]
          exact buildEnvCfg_error_shape env (flattenArgs sch) _ _ [] e2 hb
      | ok envCfg =>
          simp only [hb] at h
          split at h <;> simp at h

theorem findConfig_congr (fs : FileSystem) (st st1 : BisonState)
    (hpaths : st1.configPaths = st.configPaths) (hname : st1.configName = st.configName) :
    findConfig fs st1 = findConfig fs st := by
  unfold findConfig candidatePaths
  rw [hpaths, hname]

/-- C2 counterexample: with an EMPTY search-path list, `parse` with
`requires_cfg=True` raises nothing at all - `_parse_config` is guarded
by `if len(self.config_paths) > 0` and silently skips - contradicting
the claim that a not-found error is raised also for the empty list. -/
theorem claim2_counterexample :
    bisonParse ⟨fun _ => false, fun _ => .error ()⟩ []
      ⟨none, "config", [], none, none, false, [], .vdict [], [], [], none⟩ true =
      .ok ⟨none, "config", [], none, none, false, [], .vdict [], [], [], none⟩ ∧
    bisonParse ⟨fun _ => false, fun _ => .error ()⟩ []
      ⟨none, "config", [], none, none, false, [], .vdict [], [], [], none⟩ true ≠
      .error .notFound := by
  refine ⟨rfl, fun h => ?_⟩
  exact Except.noConfusion
    (show (Except.ok (⟨none, "config", [], none, none, false, [], .vdict [], [], [],
      none⟩ : BisonState) : Except BErr BisonState) = .error .notFound from h)

/-- C2 amended: `Bison.parse(requires_cfg=True)` raises the not-found
error whenever the search-path list is NON-EMPTY and no candidate file
exists (provided the defaults phase, which runs first, succeeds); with
an empty search-path list the config-file phase is skipped entirely and
`parse` can never raise not-found. -/
theorem claim2_parse_not_found :
    (∀ (fs : FileSystem) (env : Env) (st st1 : BisonState),
        parseDefaultPhase st = .ok st1 → st.configPaths ≠ [] →
        findConfig fs st = none →
        bisonParse fs env st true = .error .notFound) ∧
    (∀ (fs : FileSystem) (env : Env) (st : BisonState), st.configPaths = [] →
        bisonParse fs env st true ≠ .error .notFound) := by
  constructor
  · intro fs env st st1 hD hne hfind
    obtain ⟨hpaths, hname⟩ := parseDefaultPhase_preserves st st1 hD
    have hfind1 : findConfig fs st1 = none := by
      rw [findConfig_congr fs st st1 hpaths hname]
      exact hfind
    have hne1 : st1.configPaths.isEmpty = false := by
      rw [hpaths]
      rcases hsp : st.configPaths with _ | ⟨a, l⟩
      · exact absurd hsp hne
      · rfl
    simp only [bisonParse, hD, parseConfigPhase, hne1, Bool.false_eq_true, if_false, hfind1,
      if_true]
  · intro fs env st hempty h
    cases hD : parseDefaultPhase st with
    | error e =>
        simp only [bisonParse, hD] at h
        have he := parseDefaultPhase_error_shape st e hD
        have h2 := Except.error.inj h
        rw [he] at h2
        exact BErr.noConfusion h2
    | ok st1 =>
        simp only [bisonParse, hD] at h
        have hempty1 : st1.configPaths = [] := by
          rw [(parseDefaultPhase_preserves st st1 hD).1, hempty]
        have hcfg : parseConfigPhase fs st1 true = .ok st1 := by
          unfold parseConfigPhase
          rw [hempty1]
          rfl
        simp only [hcfg] at h
        cases hE : parseEnvPhase env st1 with
        | error e =>
            rw [hE] at h
            have h2 := Except.error.inj h
            rcases parseEnvPhase_error_shape env st1 e hE with he | he <;>
              (rw [he] at h2; exact BErr.noConfusion h2)
        | ok st2 =>
            rw [hE] at h
            exact Except.noConfusion h

/-- C2 witness: non-empty search paths, no file anywhere, no scheme:
`parse(requires_cfg=True)` raises the not-found error. -/
theorem claim2_witness :
    bisonParse ⟨fun _ => false, fun _ => .error ()⟩ []
      ⟨none, "config", ["/etc/app"], none, none, false, [], .vdict [], [], [], none⟩ true =
      .error .notFound :=
  claim2_parse_not_found.1 ⟨fun _ => false, fun _ => .error ()⟩ []
    ⟨none, "config", ["/etc/app"], none, none, false, [], .vdict [], [], [], none⟩
    ⟨none, "config", ["/etc/app"], none, none, false, [], .vdict [], [], [], none⟩
    rfl (by simp) rfl

/-- C3: (i) when a config file IS found but fails to open or parse,
`parse` raises the wrapped error naming the file path REGARDLESS of
`requires_cfg`; (ii) with `requires_cfg=False` a failed search is
suppressed: parsing just continues with the environment phase. -/
theorem claim3_parse_failure_fatal :
    (∀ (fs : FileSystem) (env : Env) (st st1 : BisonState) (path : String)
        (requiresCfg : Bool),
        parseDefaultPhase st = .ok st1 → findConfig fs st = some path →
        fs.readParse path = .error () →
        bisonParse fs env st requiresCfg = .error (.parseFailed path)) ∧
    (∀ (fs : FileSystem) (env : Env) (st st1 : BisonState),
        parseDefaultPhase st = .ok st1 → findConfig fs st = none →
        bisonParse fs env st false = parseEnvPhase env st1) := by
  constructor
  · intro fs env st st1 path requiresCfg hD hfind hread
    obtain ⟨hpaths, hname⟩ := parseDefaultPhase_preserves st st1 hD
    have hfind1 : findConfig fs st1 = some path := by
      rw [findConfig_congr fs st st1 hpaths hname]
      exact hfind
    have hne1 : st1.configPaths.isEmpty = false := by
      rcases hsp : st1.configPaths with _ | ⟨a, l⟩
      · exfalso
        have : findConfig fs st1 = none := by
          unfold findConfig candidatePaths
          rw [hsp]
          rfl
        rw [this] at hfind1
        exact Option.noConfusion hfind1
      · rfl
    simp only [bisonParse, hD, parseConfigPhase, hne1, Bool.false_eq_true, if_false, hfind1,
      hread]
  · intro fs env st st1 hD hfind
    obtain ⟨hpaths, hname⟩ := parseDefaultPhase_preserves st st1 hD
    have hfind1 : findConfig fs st1 = none := by
      rw [findConfig_congr fs st st1 hpaths hname]
      exact hfind
    cases hsp : st1.configPaths with
    | nil =>
        have hcfg : parseConfigPhase fs st1 false = .ok st1 := by
          unfold parseConfigPhase
          rw [hsp]
          rfl
        simp only [bisonParse, hD, hcfg]
    | cons a l =>
        have hne1 : st1.configPaths.isEmpty = false := by
          rw [hsp]
          rfl
        simp only [bisonParse, hD, parseConfigPhase, hne1, Bool.false_eq_true, if_false,
          hfind1]

/-- C3 witness: the file `/a/config.yml` exists but does not parse; with
`requires_cfg=False` the wrapped parse error naming the path is raised
anyway. -/
theorem claim3_witness :
    bisonParse ⟨fun p => p == "/a/config.yml", fun _ => .error ()⟩ []
      ⟨none, "config", ["/a"], none, none, false, [], .vdict [], [], [], none⟩ false =
      .error (.parseFailed "/a/config.yml") :=
  claim3_parse_failure_fatal.1 ⟨fun p => p == "/a/config.yml", fun _ => .error ()⟩ []
    ⟨none, "config", ["/a"], none, none, false, [], .vdict [], [], [], none⟩
    ⟨none, "config", ["/a"], none, none, false, [], .vdict [], [], [], none⟩
    "/a/config.yml" false rfl rfl rfl

end Bison
